import Mathlib

/-!
Verification of the OpenQMC sampler core against its natural-language
specification.  The C++ sources under `src/include/oqmc` are embedded
shallowly: 32-bit unsigned arithmetic becomes `Nat` arithmetic taken
`% 2^32`, 16-bit unsigned arithmetic `% 2^16`, and C `int` coordinates
become `Int` with the twos-complement masking written as the
non-negative remainder.  Every definition carries a reference to the
source function it translates.
-/

namespace oqmc

/-- 2^32, the modulus of all unsigned 32 bit arithmetic. -/
def U32 : Nat := 2 ^ 32

/-- 2^16, the modulus of all unsigned 16 bit arithmetic. -/
def U16 : Nat := 2 ^ 16

namespace pcg

/-- Embedding of `pcg::stateTransition` from src/include/oqmc/pcg.h (lines 41-45):
the LCG `state * 747796405u + 2891336453u` on `uint32_t`. -/
def stateTransition (state : Nat) : Nat :=
  (state * 747796405 + 2891336453) % U32

/-- Embedding of `pcg::output` from src/include/oqmc/pcg.h (lines 59-71):
RXS (`state ^= state >> (4 + (state >> 28))`), M (`state *= 277803737u`),
XS (`state ^= state >> 22`) on `uint32_t`. -/
def output (state : Nat) : Nat :=
  let s1 := state ^^^ (state >>> (4 + (state >>> 28)))
  let s2 := (s1 * 277803737) % U32
  s2 ^^^ (s2 >>> 22)

/-- Embedding of `pcg::init()` from src/include/oqmc/pcg.h (lines 81-84):
`stateTransition(0)`. -/
def init : Nat := stateTransition 0

/-- Embedding of `pcg::init(seed)` from src/include/oqmc/pcg.h (lines 95-98):
`init() + seed` on `uint32_t`. -/
def initSeeded (seed : Nat) : Nat := (init + seed) % U32

/-- The sequence of values produced by repeated calls to `pcg::rng`
(src/include/oqmc/pcg.h lines 128-132) starting from a given state:
each call does `state = stateTransition(state)` and yields
`output(state)`. -/
def rngStream (state : Nat) : Nat → List Nat
  | 0 => []
  | n + 1 =>
    let next := stateTransition state
    output next :: rngStream next n

end pcg

/-- Embedding of `oqmc::EncodeKey` from src/include/oqmc/encode.h (lines 22-27):
three C `int` coordinates. -/
structure EncodeKey where
  x : Int
  y : Int
  z : Int
deriving DecidableEq

/-- Embedding of `oqmc::encodeBits16<XBits, YBits, ZBits>` from src/include/oqmc/encode.h
(lines 41-62).  The C code computes `key.x & maskX` with
`maskX = (1 << XBits) - 1` on a twos-complement `int`; that bitwise mask
equals the non-negative remainder `key.x % 2^XBits`, which is how it is
written here.  Each `value |= field << offset` accumulates into a
`uint16_t`, hence the `% 2^16` after every step. -/
def encodeBits16 (X Y Z : Nat) (key : EncodeKey) : Nat :=
  let a := (key.x % ((2 : Int) ^ X)).toNat
  let b := (key.y % ((2 : Int) ^ Y)).toNat
  let c := (key.z % ((2 : Int) ^ Z)).toNat
  let v1 := (a <<< 0) % U16
  let v2 := (v1 ||| (b <<< X)) % U16
  let v3 := (v2 ||| (c <<< (X + Y))) % U16
  v3

/-- Embedding of `oqmc::decodeBits16<XBits, YBits, ZBits>` from src/include/oqmc/encode.h
(lines 76-96): each coordinate is `(value >> offset) & mask`, returned as a
(non-negative) C `int`. -/
def decodeBits16 (X Y Z : Nat) (value : Nat) : EncodeKey :=
  { x := ((value >>> 0) &&& (2 ^ X - 1) : Nat)
    y := ((value >>> X) &&& (2 ^ Y - 1) : Nat)
    z := ((value >>> (X + Y)) &&& (2 ^ Z - 1) : Nat) }

/-- Embedding of `oqmc::State64Bit` from src/include/oqmc/state.h (lines 30-112):
`patternId` is a `uint32_t`, `sampleId` and `pixelId` are `uint16_t`. -/
structure State64Bit where
  patternId : Nat
  sampleId : Nat
  pixelId : Nat
deriving DecidableEq

/-- The parametrised constructor `State64Bit::State64Bit(x, y, frame,
sampleId)` from src/include/oqmc/state.h (lines 114-128): asserts
`0 <= sampleId < 2^16` (maxIndexSize), stores
`pixelId = encodeBits16<6,6,4>({x, y, frame})`, `patternId = pcg::init()`
and `sampleId` truncated to `uint16_t`. -/
def State64Bit.ofPixel (x y frame : Int) (sampleId : Nat) : State64Bit :=
  { patternId := pcg.init
    sampleId := sampleId % U16
    pixelId := encodeBits16 6 6 4 ⟨x, y, frame⟩ }

/-- Embedding of `State64Bit::newDomain(key)` from src/include/oqmc/state.h (lines
135-141): `ret.patternId = pcg::stateTransition(patternId + key)`, the
sum taken in `uint32_t`. -/
def State64Bit.newDomain (s : State64Bit) (key : Nat) : State64Bit :=
  { s with patternId := pcg.stateTransition ((s.patternId + key) % U32) }

/-- Embedding of `State64Bit::pixelDecorrelate()` from src/include/oqmc/state.h (lines
130-133): replaces the state with `newDomain(pixelId)`. -/
def State64Bit.pixelDecorrelate (s : State64Bit) : State64Bit :=
  s.newDomain s.pixelId

/-- Embedding of `State64Bit::sampleIdMult(value)` from src/include/oqmc/state.h (lines
190-198): the product `sampleId * value`, asserted `< 2^16` and returned
as a `uint16_t`. -/
def State64Bit.sampleIdMult (s : State64Bit) (value : Nat) : Nat :=
  (s.sampleId * value) % U16

/-- Embedding of `State64Bit::sampleIdAdd(value)` from src/include/oqmc/state.h (lines
180-188): the sum `sampleId + value`, asserted `< 2^16` and returned as a
`uint16_t`. -/
def State64Bit.sampleIdAdd (s : State64Bit) (value : Nat) : Nat :=
  (s.sampleId + value) % U16

/-- Embedding of `State64Bit::newDomainDistrib(key)` from src/include/oqmc/state.h
(lines 143-149): `ret = newDomain(key).newDomain(sampleId);
ret.sampleId = 0`.  Note the operation takes no index argument. -/
def State64Bit.newDomainDistrib (s : State64Bit) (key : Nat) : State64Bit :=
  let ret := (s.newDomain key).newDomain s.sampleId
  { ret with sampleId := 0 }

/-- Embedding of `State64Bit::newDomainSplit(key, size)` from src/include/oqmc/state.h
(lines 151-159): `ret = newDomain(key); ret.sampleId =
sampleIdMult(size)`.  Note the operation takes no index argument. -/
def State64Bit.newDomainSplit (s : State64Bit) (key size : Nat) : State64Bit :=
  let ret := s.newDomain key
  { ret with sampleId := s.sampleIdMult size }

/-- Embedding of `State64Bit::nextDomainIndex()` from src/include/oqmc/state.h (lines
161-167): `ret.sampleId = sampleIdAdd(1)`. -/
def State64Bit.nextDomainIndex (s : State64Bit) : State64Bit :=
  { s with sampleId := s.sampleIdAdd 1 }

/-- Embedding of `State64Bit::drawRnd<Size>` from src/include/oqmc/state.h (lines
169-178): a local PCG stream seeded with `patternId + sampleId` (a
`uint32_t` sum), drawn `Size` times.  The output array is modelled as a
list. -/
def State64Bit.drawRnd (s : State64Bit) (size : Nat) : List Nat :=
  pcg.rngStream ((s.patternId + s.sampleId) % U32) size

/-- The `LatticeImpl` pixel constructor from src/include/oqmc/lattice.h
(lines 75-81): initialises the state with `State64Bit(x, y, frame,
sampleId)` and then calls `state.pixelDecorrelate()`. -/
def LatticeImpl.construct (x y frame : Int) (sampleId : Nat) : State64Bit :=
  (State64Bit.ofPixel x y frame sampleId).pixelDecorrelate

/-- One statement `value ^= value * c` of `oqmc::laineKarrasPermutation`
(src/include/oqmc/permute.h lines 36, 39, 40) on `uint32_t`. -/
def lkXorMul (c x : Nat) : Nat := x ^^^ ((x * c) % U32)

/-- The statement `value += seed` of `oqmc::laineKarrasPermutation`
(src/include/oqmc/permute.h line 37) on `uint32_t`. -/
def lkAdd (seed x : Nat) : Nat := (x + seed) % U32

/-- The statement `value *= (seed >> 16) | 1` of
`oqmc::laineKarrasPermutation` (src/include/oqmc/permute.h line 38) on
`uint32_t`. -/
def lkMulOdd (seed x : Nat) : Nat :=
  (x * (((seed >>> 16) ||| 1) % U32)) % U32

/-- Embedding of `oqmc::laineKarrasPermutation(value, seed)` from
src/include/oqmc/permute.h (lines 33-43), the five statements above in
source order:
`v ^= v * 0x3d20adea; v += seed; v *= (seed >> 16) | 1;
v ^= v * 0x05526c56; v ^= v * 0x53a22864`. -/
def laineKarrasPermutation (value seed : Nat) : Nat :=
  lkXorMul 0x53a22864
    (lkXorMul 0x05526c56
      (lkMulOdd seed
        (lkAdd seed
          (lkXorMul 0x3d20adea value))))

/-- One swap stage of `oqmc::reverseBits32` from
src/include/oqmc/reverse.h: `((v & maskHigh) >> shift) |
((v & maskLow) << shift)` on `uint32_t`. -/
def swapStage (maskHigh maskLow shift v : Nat) : Nat :=
  ((v &&& maskHigh) >>> shift) ||| (((v &&& maskLow) <<< shift) % U32)

/-- Embedding of `oqmc::reverseBits32(value)` from src/include/oqmc/reverse.h (lines
27-45): three mask-and-shift stages followed by a byte swap (written out
as its two shift stages, exactly the `_MSC_VER` branch and the meaning of
`__builtin_bswap32`). -/
def reverseBits32 (value : Nat) : Nat :=
  let v1 := swapStage 0xaaaaaaaa 0x55555555 1 value
  let v2 := swapStage 0xcccccccc 0x33333333 2 v1
  let v3 := swapStage 0xf0f0f0f0 0x0f0f0f0f 4 v2
  let v4 := swapStage 0xff00ff00 0x00ff00ff 8 v3
  (v4 >>> 16) ||| ((v4 <<< 16) % U32)

/-- Embedding of `oqmc::reverseAndShuffle(value, seed)` from src/include/oqmc/permute.h
(lines 54-61). -/
def reverseAndShuffle (value seed : Nat) : Nat :=
  laineKarrasPermutation (reverseBits32 value) seed

/-- Embedding of `oqmc::shuffle(value, seed)` from src/include/oqmc/permute.h (lines
73-80): `reverseBits32(reverseAndShuffle(value, seed))`. -/
def shuffle (value seed : Nat) : Nat :=
  reverseBits32 (reverseAndShuffle value seed)

/-- Embedding of `oqmc::countLeadingZeros(value)` from src/include/oqmc/float.h (lines
50-66): the number of zero bits above the highest set bit of a non-zero
`uint32_t` (`__builtin_clz`), here characterised as 32 minus the bit
length. -/
def countLeadingZeros (value : Nat) : Nat :=
  32 - ((List.range 32).filter (fun i => 2 ^ i ≤ value)).length

/-- Embedding of `oqmc::uintToFloat(value)` from src/include/oqmc/float.h (lines
80-100), computed on the IEEE-754 bit pattern that the C code assembles
and passes to `bitsToFloat`: `0.0f` for `0`, the pattern `0x5F << 23`
(2^-32) for `1`, and otherwise exponent `127 - (clz + 1)` with mantissa
`value << (clz + 1)` dropped to 23 bits.  Two distinct finite bit
patterns denote distinct floats, so float equalities are stated on these
patterns. -/
def uintToFloatBits (value : Nat) : Nat :=
  if value = 0 then 0
  else if value = 1 then 0x5F <<< 23
  else
    let clz := countLeadingZeros value
    let mantissa := (value <<< (clz + 1)) % U32
    let exponent := 127 - (clz + 1)
    (exponent <<< 23) ||| (mantissa >>> 9)

/-! ## Claim theorems (with their helper lemmas) -/

/-- C5: for every state `s` and key `k`, `newDomain(k)` changes only the
`patternId` field, setting it to `pcg::stateTransition(patternId + key)`
(the sum taken in `uint32_t`); `sampleId` and `pixelId` are unchanged,
and no state operation after construction (`pixelDecorrelate`,
`newDomainDistrib`, `newDomainSplit`, `nextDomainIndex`) ever changes
`pixelId`. -/
theorem newDomain_only_patternId (s : State64Bit) (k : Nat) :
    (s.newDomain k).patternId = pcg.stateTransition ((s.patternId + k) % U32) ∧
    (s.newDomain k).sampleId = s.sampleId ∧
    (s.newDomain k).pixelId = s.pixelId ∧
    s.pixelDecorrelate.pixelId = s.pixelId ∧
    (s.newDomainDistrib k).pixelId = s.pixelId ∧
    (∀ n, (s.newDomainSplit k n).pixelId = s.pixelId) ∧
    s.nextDomainIndex.pixelId = s.pixelId := by
  cases s
  exact ⟨rfl, rfl, rfl, rfl, rfl, fun _ => rfl, rfl⟩

/-- C8: the LCG `pcg::stateTransition` has no fixed point on the non-zero
32-bit states (in fact on no state at all): for `s < 2^32` with `s ≠ 0`,
`stateTransition(s) ≠ s`. -/
theorem stateTransition_no_fixed_point (s : Nat) (hs : s < U32) (h0 : s ≠ 0) :
    pcg.stateTransition s ≠ s := by
  unfold pcg.stateTransition U32 at *
  rw [show (2 : Nat) ^ 32 = 4294967296 by norm_num] at *
  omega

/-- Witness for C8 at the concrete state `s = 1`. -/
theorem stateTransition_no_fixed_point_witness :
    pcg.stateTransition 1 ≠ 1 :=
  stateTransition_no_fixed_point 1 (by norm_num [U32]) (by norm_num)

/-- C9: the integer-to-float conversion, stated on the IEEE-754 bit
patterns the code assembles: `uintToFloat(0)` is `0.0f` (pattern `0`),
`uintToFloat(0xFFFFFFFF)` is the largest float below one (`1 - 2^-24`,
pattern `0x3F7FFFFF`), and `uintToFloat(0x80000000)` is `0.5f`
(pattern `0x3F000000`) — the values that the min-clamped scaling
`min(v * 0x1p-32, 1 - 2^-24)` takes at these inputs. -/
theorem uintToFloat_boundary_values :
    uintToFloatBits 0 = 0x00000000 ∧
    uintToFloatBits 0xFFFFFFFF = 0x3F7FFFFF ∧
    uintToFloatBits 0x80000000 = 0x3F000000 := by
  decide

/-- C10: `State64Bit::drawRnd` seeds its local PCG stream with the
`uint32_t` sum `patternId + sampleId`, so any two states with the same
sum modulo `2^32` produce identical output arrays for every draw count
in `[1, 4]`; in particular the draw ignores `pixelId`. -/
theorem drawRnd_depends_only_on_sum (n : Nat) (h1 : 1 ≤ n) (h4 : n ≤ 4)
    (s1 s2 : State64Bit)
    (h : (s1.patternId + s1.sampleId) % U32 = (s2.patternId + s2.sampleId) % U32) :
    s1.drawRnd n = s2.drawRnd n := by
  unfold State64Bit.drawRnd
  rw [h]

/-- Witness for C10: two concrete states trading 20 units between
`patternId` and `sampleId`, with different `pixelId`s, draw the same
pair of values. -/
theorem drawRnd_depends_only_on_sum_witness :
    State64Bit.drawRnd ⟨100, 36, 0⟩ 2 = State64Bit.drawRnd ⟨120, 16, 999⟩ 2 :=
  drawRnd_depends_only_on_sum 2 (by norm_num) (by norm_num) _ _ (by decide)

/-- C1 (code bug): the constructor in src/include/oqmc/state.h does not
fold the high 16 bits of the index into `patternId`.  At index
`65536 = 2^16` it trips the debug assertion `sampleId < maxIndexSize`,
and its release arithmetic keeps `patternId = pcg::init()` and truncates
`sampleId` to `0`, whereas the claim (and the repository test
`StateTest.AlterSample`, which constructs with index `maxIndexSize` and
expects a changed pattern) requires `patternId = pcg::init(65536 >> 16)`,
which differs from `pcg::init()`. -/
theorem ofPixel_ignores_high_index_bits :
    (State64Bit.ofPixel 5 7 2 65536).patternId = pcg.init ∧
    (State64Bit.ofPixel 5 7 2 65536).sampleId = 0 ∧
    pcg.init ≠ pcg.initSeeded (65536 >>> 16) := by
  decide

/-- C2 (code bug): `State64Bit::newDomainSplit` in
src/include/oqmc/state.h takes only `(key, size)` — there is no index
argument, contradicting the facade (sampler.h lines 394-402) and the
repository test `StateTest.NextDomainIndex`, which calls
`newDomainSplit(prime, lowValue, i)` and expects `sampleId` to advance
with `i`.  Concretely, from a parent with `sampleId = 3` and
`size = 4` the code yields the single `sampleId` `12` (so the child the
claim indexes with `i = 1`, of `sampleId` `(3*4+1) & 0xFFFF = 13`, is
unreachable), and its `patternId` comes from one `newDomain` step where
the claim requires the two-step chain
`newDomain(key).newDomain(combined >> 16)`. -/
theorem newDomainSplit_missing_index_argument :
    ((State64Bit.ofPixel 5 7 2 3).newDomainSplit 13 4).sampleId = 12 ∧
    (3 * 4 + 1) % U16 = 13 ∧
    ((State64Bit.ofPixel 5 7 2 3).newDomainSplit 13 4).patternId ≠
      (((State64Bit.ofPixel 5 7 2 3).newDomain 13).newDomain
        ((3 * 4 + 0) >>> 16)).patternId := by
  decide

/-- C3 (code bug): `State64Bit::newDomainDistrib` in
src/include/oqmc/state.h takes only a `key`, always zeroes `sampleId`,
and applies the two-step chain `newDomain(key).newDomain(sampleId)`,
whereas the claim (and the repository test
`StateTest.NextDomainIndex`, which calls `newDomainDistrib(prime, i)`
and expects `sampleId = i`) requires the three-step chain
`newDomain(key).newDomain(index >> 16).newDomain(sampleId)` with
`sampleId = index & 0xFFFF`.  Shown concretely at index `5`. -/
theorem newDomainDistrib_missing_index_argument :
    ((State64Bit.ofPixel 5 7 2 3).newDomainDistrib 13).sampleId = 0 ∧
    ((State64Bit.ofPixel 5 7 2 3).newDomainDistrib 13).patternId =
      (((State64Bit.ofPixel 5 7 2 3).newDomain 13).newDomain 3).patternId ∧
    ((State64Bit.ofPixel 5 7 2 3).newDomainDistrib 13).patternId ≠
      ((((State64Bit.ofPixel 5 7 2 3).newDomain 13).newDomain
        (5 >>> 16)).newDomain 3).patternId ∧
    (0 : Nat) ≠ 5 % U16 := by
  decide

/-- C4 counterexample: the plain Lattice constructor
(src/include/oqmc/lattice.h lines 75-81) does call
`state.pixelDecorrelate()`, so at a concrete pixel its state differs
from the raw `State64Bit(x, y, frame, index)`. -/
theorem lattice_construct_not_raw_state :
    LatticeImpl.construct 5 7 2 3 ≠ State64Bit.ofPixel 5 7 2 3 := by
  decide

/-- C4 as amended: constructing a plain Lattice sampler applies
`pixelDecorrelate`, so its state immediately after construction equals
`State64Bit(x, y, frame, index).newDomain(pixelId)`. -/
theorem lattice_construct_applies_pixelDecorrelate (x y frame : Int) (i : Nat) :
    LatticeImpl.construct x y frame i =
      (State64Bit.ofPixel x y frame i).newDomain
        (State64Bit.ofPixel x y frame i).pixelId :=
  rfl

/-- Bits of a value below `2 ^ n` at positions `≥ n` are zero. -/
theorem testBit_false_of_lt_pow (a n i : Nat) (ha : a < 2 ^ n) (hi : n ≤ i) :
    a.testBit i = false :=
  Nat.testBit_eq_false_of_lt
    (lt_of_lt_of_le ha (Nat.pow_le_pow_right (by norm_num) hi))

/-- Extracting the low field of three disjointly packed fields. -/
theorem packed_field_low (a b c X Y Z : Nat) (ha : a < 2 ^ X) :
    ((a ||| (b <<< X)) ||| (c <<< (X + Y))) &&& (2 ^ X - 1) = a := by
  apply Nat.eq_of_testBit_eq
  intro i
  simp only [Nat.testBit_and, Nat.testBit_or, Nat.testBit_shiftLeft,
    Nat.testBit_two_pow_sub_one, ge_iff_le]
  by_cases hi : i < X
  · have h1 : ¬ X ≤ i := by omega
    have h2 : ¬ X + Y ≤ i := by omega
    simp [hi, h1, h2]
  · have h0 : a.testBit i = false := testBit_false_of_lt_pow a X i ha (by omega)
    simp [hi, h0]

/-- Extracting the middle field of three disjointly packed fields. -/
theorem packed_field_mid (a b c X Y Z : Nat) (ha : a < 2 ^ X) (hb : b < 2 ^ Y) :
    (((a ||| (b <<< X)) ||| (c <<< (X + Y))) >>> X) &&& (2 ^ Y - 1) = b := by
  apply Nat.eq_of_testBit_eq
  intro i
  simp only [Nat.testBit_and, Nat.testBit_or, Nat.testBit_shiftRight,
    Nat.testBit_shiftLeft, Nat.testBit_two_pow_sub_one, ge_iff_le]
  by_cases hi : i < Y
  · have h0 : a.testBit (X + i) = false :=
      testBit_false_of_lt_pow a X (X + i) ha (by omega)
    have h1 : X ≤ X + i := by omega
    have h2 : ¬ X + Y ≤ X + i := by omega
    have h3 : X + i - X = i := by omega
    simp [hi, h0, h1, h2, h3]
  · have h0 : b.testBit i = false := testBit_false_of_lt_pow b Y i hb (by omega)
    have h3 : X + i - X = i := by omega
    simp [hi, h0, h3]

/-- Extracting the high field of three disjointly packed fields. -/
theorem packed_field_high (a b c X Y Z : Nat) (ha : a < 2 ^ X) (hb : b < 2 ^ Y)
    (hc : c < 2 ^ Z) :
    (((a ||| (b <<< X)) ||| (c <<< (X + Y))) >>> (X + Y)) &&& (2 ^ Z - 1) = c := by
  apply Nat.eq_of_testBit_eq
  intro i
  simp only [Nat.testBit_and, Nat.testBit_or, Nat.testBit_shiftRight,
    Nat.testBit_shiftLeft, Nat.testBit_two_pow_sub_one, ge_iff_le]
  by_cases hi : i < Z
  · have h0 : a.testBit (X + Y + i) = false :=
      testBit_false_of_lt_pow a X (X + Y + i) ha (by omega)
    have h1 : b.testBit (X + Y + i - X) = false := by
      have h3 : X + Y + i - X = Y + i := by omega
      rw [h3]
      exact testBit_false_of_lt_pow b Y (Y + i) hb (by omega)
    have h2 : X + Y ≤ X + Y + i := by omega
    have h4 : X ≤ X + Y + i := by omega
    have h3 : X + Y + i - (X + Y) = i := by omega
    simp [hi, h0, h1, h2, h3, h4]
  · have h0 : c.testBit i = false := testBit_false_of_lt_pow c Z i hc (by omega)
    have h3 : X + Y + i - (X + Y) = i := by omega
    simp [hi, h0, h3]

/-- The shifted middle field is bounded by the combined width. -/
theorem shifted_field_lt (b X Y : Nat) (hb : b < 2 ^ Y) : b <<< X < 2 ^ (X + Y) := by
  rw [Nat.shiftLeft_eq, Nat.pow_add, Nat.mul_comm (2 ^ X)]
  exact Nat.mul_lt_mul_of_lt_of_le hb (le_refl _) (Nat.two_pow_pos X)

/-- C7: for all bit widths with `X + Y + Z ≤ 16` and every integer
coordinate triple (negative coordinates included),
`decodeBits16(encodeBits16({x, y, z}))` returns
`(x mod 2^X, y mod 2^Y, z mod 2^Z)` — coordinates outside the mask tile
modulo the per-axis resolution. -/
theorem encode_decode_round_trip (X Y Z : Nat) (h : X + Y + Z ≤ 16)
    (key : EncodeKey) :
    decodeBits16 X Y Z (encodeBits16 X Y Z key) =
      ⟨key.x % ((2 : Int) ^ X), key.y % ((2 : Int) ^ Y), key.z % ((2 : Int) ^ Z)⟩ := by
  obtain ⟨x, y, z⟩ := key
  have hx0 : (0 : Int) ≤ x % (2 : Int) ^ X := Int.emod_nonneg x (by positivity)
  have hy0 : (0 : Int) ≤ y % (2 : Int) ^ Y := Int.emod_nonneg y (by positivity)
  have hz0 : (0 : Int) ≤ z % (2 : Int) ^ Z := Int.emod_nonneg z (by positivity)
  have hax : (x % (2 : Int) ^ X).toNat < 2 ^ X := by
    rw [Int.toNat_lt hx0]
    exact_mod_cast Int.emod_lt_of_pos x (by positivity)
  have hby : (y % (2 : Int) ^ Y).toNat < 2 ^ Y := by
    rw [Int.toNat_lt hy0]
    exact_mod_cast Int.emod_lt_of_pos y (by positivity)
  have hcz : (z % (2 : Int) ^ Z).toNat < 2 ^ Z := by
    rw [Int.toNat_lt hz0]
    exact_mod_cast Int.emod_lt_of_pos z (by positivity)
  set a := (x % (2 : Int) ^ X).toNat with ha_def
  set b := (y % (2 : Int) ^ Y).toNat with hb_def
  set c := (z % (2 : Int) ^ Z).toNat with hc_def
  have hor1 : a ||| (b <<< X) < 2 ^ (X + Y) :=
    Nat.or_lt_two_pow
      (lt_of_lt_of_le hax (Nat.pow_le_pow_right (by norm_num) (by omega)))
      (shifted_field_lt b X Y hby)
  have hor2 : (a ||| (b <<< X)) ||| (c <<< (X + Y)) < 2 ^ (X + Y + Z) :=
    Nat.or_lt_two_pow
      (lt_of_lt_of_le hor1 (Nat.pow_le_pow_right (by norm_num) (by omega)))
      (by
        have := shifted_field_lt c (X + Y) Z hcz
        omega)
  have henc : encodeBits16 X Y Z ⟨x, y, z⟩ = (a ||| (b <<< X)) ||| (c <<< (X + Y)) := by
    simp only [encodeBits16, Nat.shiftLeft_zero, U16]
    rw [Nat.mod_eq_of_lt
        (lt_of_lt_of_le hax (Nat.pow_le_pow_right (by norm_num) (by omega))),
      Nat.mod_eq_of_lt
        (lt_of_lt_of_le hor1 (Nat.pow_le_pow_right (by norm_num) (by omega))),
      Nat.mod_eq_of_lt
        (lt_of_lt_of_le hor2 (Nat.pow_le_pow_right (by norm_num) (by omega)))]
  rw [henc]
  simp only [decodeBits16, Nat.shiftRight_zero, EncodeKey.mk.injEq]
  refine ⟨?_, ?_, ?_⟩
  · rw [packed_field_low a b c X Y Z hax, ha_def, Int.toNat_of_nonneg hx0]
  · rw [packed_field_mid a b c X Y Z hax hby, hb_def, Int.toNat_of_nonneg hy0]
  · rw [packed_field_high a b c X Y Z hax hby hcz, hc_def, Int.toNat_of_nonneg hz0]

/-- Witness for C7 at the core widths `(6, 6, 4)` and the mixed-sign
triple `(-1, 70, 19)`: decoding yields `(63, 6, 3)`. -/
theorem encode_decode_round_trip_witness :
    decodeBits16 6 6 4 (encodeBits16 6 6 4 ⟨-1, 70, 19⟩) =
      ⟨(-1 : Int) % (2 : Int) ^ 6, (70 : Int) % (2 : Int) ^ 6, (19 : Int) % (2 : Int) ^ 4⟩ :=
  encode_decode_round_trip 6 6 4 (by norm_num) ⟨-1, 70, 19⟩

/-! ### Bit-level characterisation of `reverseBits32` -/

/-- Reducing modulo the 32-bit modulus, seen on bits. -/
theorem testBit_mod_u32 (x i : Nat) :
    (x % U32).testBit i = (decide (i < 32) && x.testBit i) := by
  unfold U32
  exact Nat.testBit_mod_two_pow x 32 i

/-- Bits of the even-positions mask. -/
theorem mask_5555_bit (i : Nat) :
    Nat.testBit 0x55555555 i = (decide (i < 32) && decide (i % 2 < 1)) := by
  rcases Nat.lt_or_ge i 32 with h | h
  · interval_cases i <;> decide
  · have h2 : ¬ i < 32 := by omega
    have h3 : Nat.testBit 0x55555555 i = false :=
      testBit_false_of_lt_pow _ 32 i (by norm_num) h
    simp [h2, h3]

/-- Bits of the odd-positions mask. -/
theorem mask_aaaa_bit (i : Nat) :
    Nat.testBit 0xaaaaaaaa i = (decide (i < 32) && decide (i % 2 ≥ 1)) := by
  rcases Nat.lt_or_ge i 32 with h | h
  · interval_cases i <;> decide
  · have h2 : ¬ i < 32 := by omega
    have h3 : Nat.testBit 0xaaaaaaaa i = false :=
      testBit_false_of_lt_pow _ 32 i (by norm_num) h
    simp [h2, h3]

/-- Bits of the low-pair mask. -/
theorem mask_3333_bit (i : Nat) :
    Nat.testBit 0x33333333 i = (decide (i < 32) && decide (i % 4 < 2)) := by
  rcases Nat.lt_or_ge i 32 with h | h
  · interval_cases i <;> decide
  · have h2 : ¬ i < 32 := by omega
    have h3 : Nat.testBit 0x33333333 i = false :=
      testBit_false_of_lt_pow _ 32 i (by norm_num) h
    simp [h2, h3]

/-- Bits of the high-pair mask. -/
theorem mask_cccc_bit (i : Nat) :
    Nat.testBit 0xcccccccc i = (decide (i < 32) && decide (i % 4 ≥ 2)) := by
  rcases Nat.lt_or_ge i 32 with h | h
  · interval_cases i <;> decide
  · have h2 : ¬ i < 32 := by omega
    have h3 : Nat.testBit 0xcccccccc i = false :=
      testBit_false_of_lt_pow _ 32 i (by norm_num) h
    simp [h2, h3]

/-- Bits of the low-nibble mask. -/
theorem mask_0f0f_bit (i : Nat) :
    Nat.testBit 0x0f0f0f0f i = (decide (i < 32) && decide (i % 8 < 4)) := by
  rcases Nat.lt_or_ge i 32 with h | h
  · interval_cases i <;> decide
  · have h2 : ¬ i < 32 := by omega
    have h3 : Nat.testBit 0x0f0f0f0f i = false :=
      testBit_false_of_lt_pow _ 32 i (by norm_num) h
    simp [h2, h3]

/-- Bits of the high-nibble mask. -/
theorem mask_f0f0_bit (i : Nat) :
    Nat.testBit 0xf0f0f0f0 i = (decide (i < 32) && decide (i % 8 ≥ 4)) := by
  rcases Nat.lt_or_ge i 32 with h | h
  · interval_cases i <;> decide
  · have h2 : ¬ i < 32 := by omega
    have h3 : Nat.testBit 0xf0f0f0f0 i = false :=
      testBit_false_of_lt_pow _ 32 i (by norm_num) h
    simp [h2, h3]

/-- Bits of the low-byte mask. -/
theorem mask_00ff_bit (i : Nat) :
    Nat.testBit 0x00ff00ff i = (decide (i < 32) && decide (i % 16 < 8)) := by
  rcases Nat.lt_or_ge i 32 with h | h
  · interval_cases i <;> decide
  · have h2 : ¬ i < 32 := by omega
    have h3 : Nat.testBit 0x00ff00ff i = false :=
      testBit_false_of_lt_pow _ 32 i (by norm_num) h
    simp [h2, h3]

/-- Bits of the high-byte mask. -/
theorem mask_ff00_bit (i : Nat) :
    Nat.testBit 0xff00ff00 i = (decide (i < 32) && decide (i % 16 ≥ 8)) := by
  rcases Nat.lt_or_ge i 32 with h | h
  · interval_cases i <;> decide
  · have h2 : ¬ i < 32 := by omega
    have h3 : Nat.testBit 0xff00ff00 i = false :=
      testBit_false_of_lt_pow _ 32 i (by norm_num) h
    simp [h2, h3]

/-- A swap stage always produces a 32-bit value. -/
theorem swapStage_lt (maskHigh maskLow shift v : Nat) (h : maskHigh < U32) :
    swapStage maskHigh maskLow shift v < U32 := by
  have h1 : (v &&& maskHigh) >>> shift < 2 ^ 32 := by
    calc (v &&& maskHigh) >>> shift ≤ v &&& maskHigh := by
          rw [Nat.shiftRight_eq_div_pow]
          exact Nat.div_le_self _ _
      _ ≤ maskHigh := Nat.and_le_right
      _ < 2 ^ 32 := h
  have h2 : ((v &&& maskLow) <<< shift) % U32 < 2 ^ 32 :=
    Nat.mod_lt _ (by unfold U32; positivity)
  exact Nat.or_lt_two_pow h1 h2

/-- The first swap stage exchanges adjacent bits. -/
theorem stage1_bit (v i : Nat) (hi : i < 32) :
    (swapStage 0xaaaaaaaa 0x55555555 1 v).testBit i =
      v.testBit (if i % 2 < 1 then i + 1 else i - 1) := by
  interval_cases i <;>
    simp [swapStage, Nat.testBit_or, Nat.testBit_and, Nat.testBit_shiftRight,
      Nat.testBit_shiftLeft, testBit_mod_u32, mask_aaaa_bit, mask_5555_bit,
      -Nat.testBit_zero]

/-- The second swap stage exchanges adjacent bit pairs. -/
theorem stage2_bit (v i : Nat) (hi : i < 32) :
    (swapStage 0xcccccccc 0x33333333 2 v).testBit i =
      v.testBit (if i % 4 < 2 then i + 2 else i - 2) := by
  interval_cases i <;>
    simp [swapStage, Nat.testBit_or, Nat.testBit_and, Nat.testBit_shiftRight,
      Nat.testBit_shiftLeft, testBit_mod_u32, mask_cccc_bit, mask_3333_bit,
      -Nat.testBit_zero]

/-- The third swap stage exchanges adjacent nibbles. -/
theorem stage4_bit (v i : Nat) (hi : i < 32) :
    (swapStage 0xf0f0f0f0 0x0f0f0f0f 4 v).testBit i =
      v.testBit (if i % 8 < 4 then i + 4 else i - 4) := by
  interval_cases i <;>
    simp [swapStage, Nat.testBit_or, Nat.testBit_and, Nat.testBit_shiftRight,
      Nat.testBit_shiftLeft, testBit_mod_u32, mask_f0f0_bit, mask_00ff_bit,
      mask_0f0f_bit,
      -Nat.testBit_zero]

/-- The fourth swap stage exchanges adjacent bytes. -/
theorem stage8_bit (v i : Nat) (hi : i < 32) :
    (swapStage 0xff00ff00 0x00ff00ff 8 v).testBit i =
      v.testBit (if i % 16 < 8 then i + 8 else i - 8) := by
  interval_cases i <;>
    simp [swapStage, Nat.testBit_or, Nat.testBit_and, Nat.testBit_shiftRight,
      Nat.testBit_shiftLeft, testBit_mod_u32, mask_ff00_bit, mask_00ff_bit,
      -Nat.testBit_zero]

/-- The final stage of `reverseBits32` exchanges the two half words. -/
theorem stage16_bit (w i : Nat) (hw : w < U32) (hi : i < 32) :
    ((w >>> 16) ||| ((w <<< 16) % U32)).testBit i =
      w.testBit (if i < 16 then i + 16 else i - 16) := by
  simp only [Nat.testBit_or, Nat.testBit_shiftRight, Nat.testBit_shiftLeft,
    testBit_mod_u32, ge_iff_le]
  by_cases h16 : i < 16
  · have h1 : ¬ 16 ≤ i := by omega
    have h2 : 16 + i = i + 16 := by omega
    simp [h16, h1, h2, hi]
  · have hw2 : w < 2 ^ 32 := hw
    have hfalse : w.testBit (16 + i) = false :=
      testBit_false_of_lt_pow w 32 (16 + i) hw2 (by omega)
    have h1 : 16 ≤ i := by omega
    simp [h16, hfalse, h1, hi]

/-- The embedded `reverseBits32` reverses the bit order of a 32-bit word. -/
theorem reverseBits32_testBit (v i : Nat) (hi : i < 32) :
    (reverseBits32 v).testBit i = v.testBit (31 - i) := by
  have h4 : swapStage 0xff00ff00 0x00ff00ff 8
      (swapStage 0xf0f0f0f0 0x0f0f0f0f 4
        (swapStage 0xcccccccc 0x33333333 2
          (swapStage 0xaaaaaaaa 0x55555555 1 v))) < U32 :=
    swapStage_lt _ _ _ _ (by unfold U32; norm_num)
  interval_cases i <;>
    simp only [reverseBits32] <;>
    simp [stage16_bit _ _ h4, stage8_bit, stage4_bit, stage2_bit, stage1_bit,
      -Nat.testBit_zero]

/-- The embedded `reverseBits32` always produces a 32-bit value. -/
theorem reverseBits32_lt (v : Nat) : reverseBits32 v < U32 := by
  have h4 : swapStage 0xff00ff00 0x00ff00ff 8
      (swapStage 0xf0f0f0f0 0x0f0f0f0f 4
        (swapStage 0xcccccccc 0x33333333 2
          (swapStage 0xaaaaaaaa 0x55555555 1 v))) < U32 :=
    swapStage_lt _ _ _ _ (by unfold U32; norm_num)
  set w := swapStage 0xff00ff00 0x00ff00ff 8
      (swapStage 0xf0f0f0f0 0x0f0f0f0f 4
        (swapStage 0xcccccccc 0x33333333 2
          (swapStage 0xaaaaaaaa 0x55555555 1 v))) with hw_def
  have h1 : w >>> 16 < 2 ^ 32 := by
    have hle : w >>> 16 ≤ w := by
      rw [Nat.shiftRight_eq_div_pow]
      exact Nat.div_le_self _ _
    exact lt_of_le_of_lt hle h4
  have h2 : (w <<< 16) % U32 < 2 ^ 32 :=
    Nat.mod_lt _ (by unfold U32; positivity)
  show (w >>> 16) ||| ((w <<< 16) % U32) < U32
  exact Nat.or_lt_two_pow h1 h2

/-- Double bit reversal is the identity on 32-bit values. -/
theorem reverseBits32_involutive (v : Nat) (hv : v < U32) :
    reverseBits32 (reverseBits32 v) = v := by
  apply Nat.eq_of_testBit_eq
  intro u
  rcases Nat.lt_or_ge u 32 with hu | hu
  · rw [reverseBits32_testBit _ u hu, reverseBits32_testBit _ (31 - u) (by omega),
      Nat.sub_sub_self (by omega : u ≤ 31)]
  · rw [testBit_false_of_lt_pow _ 32 u (reverseBits32_lt _) hu,
      testBit_false_of_lt_pow v 32 u hv hu]

/-! ### The Laine-Karras permutation: bounds, low-bit locality,
injectivity -/

/-- XOR distributes over reduction modulo a power of two. -/
theorem xor_mod_two_pow (x y m : Nat) :
    (x ^^^ y) % 2 ^ m = (x % 2 ^ m) ^^^ (y % 2 ^ m) := by
  apply Nat.eq_of_testBit_eq
  intro i
  simp only [Nat.testBit_mod_two_pow, Nat.testBit_xor]
  by_cases hi : i < m <;> simp [hi]

/-- Reduction modulo `2^32` then modulo a smaller power of two. -/
theorem mod_u32_mod (m x : Nat) (hm : m ≤ 32) : x % U32 % 2 ^ m = x % 2 ^ m := by
  unfold U32
  exact Nat.mod_mod_of_dvd x (pow_dvd_pow 2 hm)

/-- Any value ORed with one is odd. -/
theorem or_one_mod_two (a : Nat) : (a ||| 1) % 2 = 1 := by
  have h : (a ||| 1).testBit 0 = true := by
    simp [Nat.testBit_or]
  rw [Nat.testBit_zero] at h
  exact of_decide_eq_true h

/-- The xor-multiply step keeps values inside 32 bits. -/
theorem lkXorMul_lt (c x : Nat) (hx : x < U32) : lkXorMul c x < U32 := by
  unfold lkXorMul U32 at *
  exact Nat.xor_lt_two_pow hx (Nat.mod_lt _ (by positivity))

/-- The add step keeps values inside 32 bits. -/
theorem lkAdd_lt (seed x : Nat) : lkAdd seed x < U32 :=
  Nat.mod_lt _ (by unfold U32; positivity)

/-- The odd-multiply step keeps values inside 32 bits. -/
theorem lkMulOdd_lt (seed x : Nat) : lkMulOdd seed x < U32 :=
  Nat.mod_lt _ (by unfold U32; positivity)

/-- The permutation keeps 32-bit values inside 32 bits. -/
theorem laineKarrasPermutation_lt (v s : Nat) (hv : v < U32) :
    laineKarrasPermutation v s < U32 :=
  lkXorMul_lt _ _ (lkXorMul_lt _ _ (lkMulOdd_lt _ _))

/-- The low `m` bits of the xor-multiply step depend only on the low `m`
bits of the input. -/
theorem lkXorMul_mod (c m : Nat) (hm : m ≤ 32) (x : Nat) :
    lkXorMul c x % 2 ^ m = lkXorMul c (x % 2 ^ m) % 2 ^ m := by
  unfold lkXorMul
  rw [xor_mod_two_pow, xor_mod_two_pow, mod_u32_mod _ _ hm, mod_u32_mod _ _ hm,
    Nat.mod_mod_of_dvd x dvd_rfl]
  have hmul : (x * c) % 2 ^ m = (x % 2 ^ m * c) % 2 ^ m := by
    conv_rhs => rw [Nat.mul_mod, Nat.mod_mod_of_dvd x dvd_rfl, ← Nat.mul_mod]
  rw [hmul]

/-- The low `m` bits of the add step depend only on the low `m` bits of
the input. -/
theorem lkAdd_mod (seed m : Nat) (hm : m ≤ 32) (x : Nat) :
    lkAdd seed x % 2 ^ m = lkAdd seed (x % 2 ^ m) % 2 ^ m := by
  unfold lkAdd
  rw [mod_u32_mod _ _ hm, mod_u32_mod _ _ hm]
  conv_rhs => rw [Nat.add_mod, Nat.mod_mod_of_dvd x dvd_rfl, ← Nat.add_mod]

/-- The low `m` bits of the odd-multiply step depend only on the low `m`
bits of the input. -/
theorem lkMulOdd_mod (seed m : Nat) (hm : m ≤ 32) (x : Nat) :
    lkMulOdd seed x % 2 ^ m = lkMulOdd seed (x % 2 ^ m) % 2 ^ m := by
  unfold lkMulOdd
  rw [mod_u32_mod _ _ hm, mod_u32_mod _ _ hm]
  conv_rhs => rw [Nat.mul_mod, Nat.mod_mod_of_dvd x dvd_rfl, ← Nat.mul_mod]

/-- The low `m` bits of the whole permutation depend only on the low `m`
bits of the input (lower input bits never reach lower output bits). -/
theorem laineKarrasPermutation_mod (m s : Nat) (hm : m ≤ 32) (v : Nat) :
    laineKarrasPermutation v s % 2 ^ m =
      laineKarrasPermutation (v % 2 ^ m) s % 2 ^ m := by
  show lkXorMul 0x53a22864 (lkXorMul 0x05526c56 (lkMulOdd s (lkAdd s
      (lkXorMul 0x3d20adea v)))) % 2 ^ m = _
  have e1 : lkXorMul 0x3d20adea v % 2 ^ m =
      lkXorMul 0x3d20adea (v % 2 ^ m) % 2 ^ m := lkXorMul_mod _ m hm v
  have e2 : lkAdd s (lkXorMul 0x3d20adea v) % 2 ^ m =
      lkAdd s (lkXorMul 0x3d20adea (v % 2 ^ m)) % 2 ^ m := by
    rw [lkAdd_mod s m hm, e1, ← lkAdd_mod s m hm]
  have e3 : lkMulOdd s (lkAdd s (lkXorMul 0x3d20adea v)) % 2 ^ m =
      lkMulOdd s (lkAdd s (lkXorMul 0x3d20adea (v % 2 ^ m))) % 2 ^ m := by
    rw [lkMulOdd_mod s m hm, e2, ← lkMulOdd_mod s m hm]
  have e4 : lkXorMul 0x05526c56 (lkMulOdd s (lkAdd s
      (lkXorMul 0x3d20adea v))) % 2 ^ m =
      lkXorMul 0x05526c56 (lkMulOdd s (lkAdd s
      (lkXorMul 0x3d20adea (v % 2 ^ m)))) % 2 ^ m := by
    rw [lkXorMul_mod 0x05526c56 m hm, e3, ← lkXorMul_mod 0x05526c56 m hm]
  rw [lkXorMul_mod 0x53a22864 m hm, e4, ← lkXorMul_mod 0x53a22864 m hm]
  rfl

/-- Multiplying by an even constant, the product modulo `2^(n+1)` only
depends on the factor modulo `2^n`. -/
theorem mul_even_mod_succ (x c n : Nat) (hc : c % 2 = 0) :
    (x * c) % 2 ^ (n + 1) = ((x % 2 ^ n) * c) % 2 ^ (n + 1) := by
  obtain ⟨c2, rfl⟩ : ∃ c2, c = 2 * c2 := ⟨c / 2, by omega⟩
  conv_lhs => rw [← Nat.mod_add_div x (2 ^ n)]
  rw [Nat.add_mul]
  have h2 : 2 ^ n * (x / 2 ^ n) * (2 * c2) = 2 ^ (n + 1) * (x / 2 ^ n * c2) := by
    ring
  rw [h2, Nat.add_mul_mod_self_left]

/-- The xor-multiply step with an even constant is injective on 32-bit
values: the new bit `n` is the old bit `n` XORed with a function of the
lower bits only. -/
theorem lkXorMul_inj (c : Nat) (hc : c % 2 = 0) (x y : Nat)
    (hx : x < U32) (hy : y < U32) (h : lkXorMul c x = lkXorMul c y) :
    x = y := by
  have key : ∀ n, n ≤ 32 → x % 2 ^ n = y % 2 ^ n := by
    intro n
    induction n with
    | zero => intro _; simp [Nat.pow_zero, Nat.mod_one]
    | succ n ih =>
      intro hn
      have hmod : x % 2 ^ n = y % 2 ^ n := ih (by omega)
      have hmul : (x * c).testBit n = (y * c).testBit n := by
        have h1 : (x * c) % 2 ^ (n + 1) = (y * c) % 2 ^ (n + 1) := by
          rw [mul_even_mod_succ x c n hc, mul_even_mod_succ y c n hc, hmod]
        have h2 : (x * c).testBit n = ((x * c) % 2 ^ (n + 1)).testBit n := by
          rw [Nat.testBit_mod_two_pow]
          simp
        have h3 : (y * c).testBit n = ((y * c) % 2 ^ (n + 1)).testBit n := by
          rw [Nat.testBit_mod_two_pow]
          simp
        rw [h2, h3, h1]
      have hbit : x.testBit n = y.testBit n := by
        have hxor := congrArg (fun t => t.testBit n) h
        simp only [lkXorMul, Nat.testBit_xor, testBit_mod_u32] at hxor
        have hn32 : n < 32 := by omega
        simp only [hn32, decide_True, Bool.true_and] at hxor
        rw [hmul] at hxor
        cases hB : (y * c).testBit n <;> rw [hB] at hxor <;> simpa using hxor
      have hdiv : x / 2 ^ n % 2 = y / 2 ^ n % 2 := by
        have hx2 : x.testBit n = decide (x / 2 ^ n % 2 = 1) :=
          Nat.testBit_to_div_mod
        have hy2 : y.testBit n = decide (y / 2 ^ n % 2 = 1) :=
          Nat.testBit_to_div_mod
        rw [hx2, hy2] at hbit
        have hxlt : x / 2 ^ n % 2 < 2 := Nat.mod_lt _ (by norm_num)
        have hylt : y / 2 ^ n % 2 < 2 := Nat.mod_lt _ (by norm_num)
        by_cases hdx : x / 2 ^ n % 2 = 1 <;> by_cases hdy : y / 2 ^ n % 2 = 1 <;>
          simp [hdx, hdy] at hbit ⊢ <;> omega
      rw [Nat.mod_pow_succ, Nat.mod_pow_succ, hmod, hdiv]
  have h32 := key 32 (le_refl 32)
  have hx32 : x % 2 ^ 32 = x := Nat.mod_eq_of_lt hx
  have hy32 : y % 2 ^ 32 = y := Nat.mod_eq_of_lt hy
  rw [hx32, hy32] at h32
  exact h32

/-- The add step is injective on 32-bit values. -/
theorem lkAdd_inj (seed x y : Nat) (hx : x < U32) (hy : y < U32)
    (h : lkAdd seed x = lkAdd seed y) : x = y := by
  unfold lkAdd U32 at *
  rw [show (2 : Nat) ^ 32 = 4294967296 by norm_num] at *
  omega

/-- The odd-multiply step is injective on 32-bit values: the multiplier
`(seed >> 16) | 1` is odd, hence invertible modulo `2^32`. -/
theorem lkMulOdd_inj (seed x y : Nat) (hx : x < U32) (hy : y < U32)
    (h : lkMulOdd seed x = lkMulOdd seed y) : x = y := by
  have hd : (((seed >>> 16) ||| 1) % U32) % 2 = 1 := by
    have h1 := mod_u32_mod 1 ((seed >>> 16) ||| 1) (by norm_num)
    have h2 : (2 : Nat) ^ 1 = 2 := by norm_num
    rw [h2] at h1
    rw [h1, or_one_mod_two]
  have hco : Nat.gcd (2 ^ 32) (((seed >>> 16) ||| 1) % U32) = 1 :=
    Nat.Coprime.pow_left 32
      ((Nat.Prime.coprime_iff_not_dvd Nat.prime_two).mpr (by omega))
  have hmodeq : Nat.ModEq (2 ^ 32) (x * (((seed >>> 16) ||| 1) % U32))
      (y * (((seed >>> 16) ||| 1) % U32)) := h
  have heq : x % 2 ^ 32 = y % 2 ^ 32 :=
    Nat.ModEq.cancel_right_of_coprime hco hmodeq
  have hx2 : x < 2 ^ 32 := hx
  have hy2 : y < 2 ^ 32 := hy
  rw [Nat.mod_eq_of_lt hx2, Nat.mod_eq_of_lt hy2] at heq
  exact heq

/-- The whole Laine-Karras permutation is injective on 32-bit values. -/
theorem laineKarrasPermutation_inj (s v w : Nat) (hv : v < U32) (hw : w < U32)
    (h : laineKarrasPermutation v s = laineKarrasPermutation w s) : v = w := by
  have h1v : lkXorMul 0x3d20adea v < U32 := lkXorMul_lt _ _ hv
  have h1w : lkXorMul 0x3d20adea w < U32 := lkXorMul_lt _ _ hw
  have h2v : lkAdd s (lkXorMul 0x3d20adea v) < U32 := lkAdd_lt _ _
  have h2w : lkAdd s (lkXorMul 0x3d20adea w) < U32 := lkAdd_lt _ _
  have h3v : lkMulOdd s (lkAdd s (lkXorMul 0x3d20adea v)) < U32 := lkMulOdd_lt _ _
  have h3w : lkMulOdd s (lkAdd s (lkXorMul 0x3d20adea w)) < U32 := lkMulOdd_lt _ _
  have h4v : lkXorMul 0x05526c56 (lkMulOdd s (lkAdd s
      (lkXorMul 0x3d20adea v))) < U32 := lkXorMul_lt _ _ h3v
  have h4w : lkXorMul 0x05526c56 (lkMulOdd s (lkAdd s
      (lkXorMul 0x3d20adea w))) < U32 := lkXorMul_lt _ _ h3w
  replace h : lkXorMul 0x53a22864 (lkXorMul 0x05526c56 (lkMulOdd s (lkAdd s
      (lkXorMul 0x3d20adea v)))) = lkXorMul 0x53a22864 (lkXorMul 0x05526c56
      (lkMulOdd s (lkAdd s (lkXorMul 0x3d20adea w)))) := h
  have h4 := lkXorMul_inj 0x53a22864 (by norm_num) _ _ h4v h4w h
  have h3 := lkXorMul_inj 0x05526c56 (by norm_num) _ _ h3v h3w h4
  have h2 := lkMulOdd_inj s _ _ h2v h2w h3
  have h1 := lkAdd_inj s _ _ h1v h1w h2
  exact lkXorMul_inj 0x3d20adea (by norm_num) _ _ hv hw h1

/-- The bit-reversal of a value below `2^k` has its low `32 - k` bits
zero. -/
theorem rev_prefix_zero (k i : Nat) (hk : k ≤ 32) (hi : i < 2 ^ k) :
    reverseBits32 i % 2 ^ (32 - k) = 0 := by
  apply Nat.eq_of_testBit_eq
  intro t
  rw [Nat.testBit_mod_two_pow, Nat.zero_testBit]
  by_cases ht : t < 32 - k
  · have h1 : (reverseBits32 i).testBit t = i.testBit (31 - t) :=
      reverseBits32_testBit i t (by omega)
    have h2 : i.testBit (31 - t) = false :=
      testBit_false_of_lt_pow i k (31 - t) hi (by omega)
    simp [ht, h1, h2]
  · simp [ht]

/-- The embedded `shuffle` is injective on every `2^k`-sized prefix, modulo `2^k`:
in the reversed domain the inputs differ only in their top `k` bits,
the permutation is injective and keeps the low `32 - k` output bits
equal, and reversing back moves that difference into the low `k` bits. -/
theorem shuffle_prefix_injOn (seed k : Nat) (hk : k ≤ 16) :
    ∀ i, i < 2 ^ k → ∀ j, j < 2 ^ k →
      shuffle i seed % 2 ^ k = shuffle j seed % 2 ^ k → i = j := by
  intro i hi j hj h
  have hk32 : k ≤ 32 := by omega
  have hpow : (2 : Nat) ^ k ≤ 2 ^ 32 := Nat.pow_le_pow_right (by norm_num) hk32
  have hi32 : i < U32 := lt_of_lt_of_le hi hpow
  have hj32 : j < U32 := lt_of_lt_of_le hj hpow
  set a := reverseBits32 i with ha_def
  set b := reverseBits32 j with hb_def
  have haU : a < U32 := reverseBits32_lt i
  have hbU : b < U32 := reverseBits32_lt j
  have ha0 : a % 2 ^ (32 - k) = 0 := rev_prefix_zero k i hk32 hi
  have hb0 : b % 2 ^ (32 - k) = 0 := rev_prefix_zero k j hk32 hj
  set A := laineKarrasPermutation a seed with hA_def
  set B := laineKarrasPermutation b seed with hB_def
  have hAU : A < U32 := laineKarrasPermutation_lt a seed haU
  have hBU : B < U32 := laineKarrasPermutation_lt b seed hbU
  have hABlow : A % 2 ^ (32 - k) = B % 2 ^ (32 - k) := by
    rw [hA_def, hB_def, laineKarrasPermutation_mod (32 - k) seed (by omega) a,
      laineKarrasPermutation_mod (32 - k) seed (by omega) b, ha0, hb0]
  have hshuffle : reverseBits32 A % 2 ^ k = reverseBits32 B % 2 ^ k := h
  have hABhigh : ∀ t, t < k → A.testBit (31 - t) = B.testBit (31 - t) := by
    intro t ht
    have h1 := congrArg (fun w => w.testBit t) hshuffle
    simp only [Nat.testBit_mod_two_pow] at h1
    have ht2 : t < k := ht
    simp only [ht2, decide_True, Bool.true_and] at h1
    rw [reverseBits32_testBit A t (by omega), reverseBits32_testBit B t (by omega)]
      at h1
    exact h1
  have hAB : A = B := by
    apply Nat.eq_of_testBit_eq
    intro u
    rcases Nat.lt_or_ge u (32 - k) with hu | hu
    · have h1 := congrArg (fun w => w.testBit u) hABlow
      simp only [Nat.testBit_mod_two_pow, hu, decide_True, Bool.true_and] at h1
      exact h1
    · rcases Nat.lt_or_ge u 32 with hu32 | hu32
      · have ht : 31 - u < k := by omega
        have h2 := hABhigh (31 - u) ht
        rwa [Nat.sub_sub_self (by omega : u ≤ 31)] at h2
      · rw [testBit_false_of_lt_pow A 32 u hAU hu32,
          testBit_false_of_lt_pow B 32 u hBU hu32]
  have hab : a = b := laineKarrasPermutation_inj seed a b haU hbU hAB
  have hrev : reverseBits32 a = reverseBits32 b := by rw [hab]
  rw [ha_def, hb_def, reverseBits32_involutive i hi32,
    reverseBits32_involutive j hj32] at hrev
  exact hrev

/-- C6: for every 32-bit seed and every `k ≤ 16`, the map
`i ↦ shuffle(i, seed) mod 2^k` restricted to `[0, 2^k)` is injective and
maps that range onto itself — a permutation of `{0, ..., 2^k - 1}`. -/
theorem shuffle_prefix_bijective (seed k : Nat) (hseed : seed < U32)
    (hk : k ≤ 16) :
    (∀ i, i < 2 ^ k → ∀ j, j < 2 ^ k →
      shuffle i seed % 2 ^ k = shuffle j seed % 2 ^ k → i = j) ∧
    (Finset.range (2 ^ k)).image (fun i => shuffle i seed % 2 ^ k) =
      Finset.range (2 ^ k) := by
  refine ⟨shuffle_prefix_injOn seed k hk, ?_⟩
  have hsub : (Finset.range (2 ^ k)).image (fun i => shuffle i seed % 2 ^ k) ⊆
      Finset.range (2 ^ k) := by
    intro m hm
    rw [Finset.mem_image] at hm
    obtain ⟨i, _, rfl⟩ := hm
    exact Finset.mem_range.mpr (Nat.mod_lt _ (Nat.two_pow_pos k))
  have hcard : ((Finset.range (2 ^ k)).image
      (fun i => shuffle i seed % 2 ^ k)).card = (Finset.range (2 ^ k)).card := by
    apply Finset.card_image_of_injOn
    intro i hi j hj hij
    have hi2 : i < 2 ^ k := by simpa using hi
    have hj2 : j < 2 ^ k := by simpa using hj
    exact shuffle_prefix_injOn seed k hk i hi2 j hj2 hij
  exact Finset.eq_of_subset_of_card_le hsub (le_of_eq hcard.symm)

/-- Witness for C6 at `seed = 0x12345678` and `k = 3`. -/
theorem shuffle_prefix_bijective_witness :
    (∀ i, i < 2 ^ 3 → ∀ j, j < 2 ^ 3 →
      shuffle i 0x12345678 % 2 ^ 3 = shuffle j 0x12345678 % 2 ^ 3 → i = j) ∧
    (Finset.range (2 ^ 3)).image (fun i => shuffle i 0x12345678 % 2 ^ 3) =
      Finset.range (2 ^ 3) :=
  shuffle_prefix_bijective 0x12345678 3 (by unfold U32; norm_num) (by norm_num)

end oqmc
